import Mathlib

/-!
Verification of the Chroma vector-database adapter (`memos/vec_dbs/chroma.py`):
the metadata codec (`serialize_metadata` / `deserialize_metadata`), the read
paths (`get_by_id`, `get_by_ids`, `get_by_filter`, `search`, `count`), the
write path (`update`) and the collection management (`create_collection`,
`get_collection`).  Python values are embedded as `PyVal`; the external JSON
module and the Chroma backend are modelled from the specification, as marked
in the doc comments.
-/

/-- Python values stored in item payloads: scalars, lists and nested mappings. -/
inductive PyVal where
  | str  (s : String)
  | int  (n : Int)
  | bool (b : Bool)
  | none
  | list (xs : List PyVal)
  | dict (kvs : List (String × PyVal))
deriving Repr

/- ## JSON text codec (dumps / loads)
Modelled from the spec: the adapter serializes nested payload values into
"a scalar string representation (e.g., canonical JSON text)" and parses it
back on read (Python's `json.dumps` / `json.loads`, external to the repo).
Strings escape the quote and backslash characters; numbers are integers. -/
def escChar (c : Char) : List Char :=
  if c = '"' ∨ c = '\\' then ['\\', c] else [c]

def printStr (s : String) : List Char :=
  '"' :: (s.data.flatMap escChar ++ ['"'])

def digitToChar (d : Nat) : Char := Char.ofNat (48 + d)

def natDigitsAux : Nat → Nat → List Char
  | 0, _ => []
  | _+1, 0 => []
  | fuel+1, n => natDigitsAux fuel (n / 10) ++ [digitToChar (n % 10)]

def printNat (n : Nat) : List Char :=
  if n = 0 then ['0'] else natDigitsAux (n + 1) n

def printInt (i : Int) : List Char :=
  if i < 0 then '-' :: printNat i.natAbs else printNat i.toNat

mutual

def printVal : PyVal → List Char
  | .str s => printStr s
  | .int i => printInt i
  | .bool true => ['t', 'r', 'u', 'e']
  | .bool false => ['f', 'a', 'l', 's', 'e']
  | .none => ['n', 'u', 'l', 'l']
  | .list xs => '[' :: (printElems xs ++ [']'])
  | .dict kvs => '{' :: (printMembers kvs ++ ['}'])

def printElems : List PyVal → List Char
  | [] => []
  | [x] => printVal x
  | x :: y :: xs => printVal x ++ ',' :: ' ' :: printElems (y :: xs)

def printMembers : List (String × PyVal) → List Char
  | [] => []
  | [(k, v)] => printStr k ++ ':' :: ' ' :: printVal v
  | (k, v) :: m :: kvs =>
    (printStr k ++ ':' :: ' ' :: printVal v) ++ ',' :: ' ' :: printMembers (m :: kvs)

end

/-- `json.dumps` on a Python value (modelled from the spec, see above). -/
def dumps (v : PyVal) : String := String.mk (printVal v)

def isDigitCh (c : Char) : Bool := 48 ≤ c.toNat && c.toNat ≤ 57

def charToDigit (c : Char) : Nat := c.toNat - 48

def spanDigits : List Char → List Char × List Char
  | [] => ([], [])
  | c :: rest =>
    if isDigitCh c then
      let p := spanDigits rest
      (c :: p.1, p.2)
    else ([], c :: rest)

def digitsToNat (l : List Char) : Nat :=
  l.foldl (fun a c => 10 * a + charToDigit c) 0

def parseNum (l : List Char) : Option (PyVal × List Char) :=
  if l.head? = some '-' then
    if (spanDigits l.tail).1 = [] then Option.none
    else some (.int (-(digitsToNat (spanDigits l.tail).1 : Int)), (spanDigits l.tail).2)
  else
    if (spanDigits l).1 = [] then Option.none
    else some (.int ((digitsToNat (spanDigits l).1 : Int)), (spanDigits l).2)

def parseStrBody : List Char → Option (List Char × List Char)
  | [] => Option.none
  | c :: rest =>
    if c = '"' then some ([], rest)
    else if c = '\\' then
      match rest with
      | [] => Option.none
      | e :: rest2 => (parseStrBody rest2).map fun p => (e :: p.1, p.2)
    else (parseStrBody rest).map fun p => (c :: p.1, p.2)

/-- One pass of the JSON array-element loop: parses `v (, v)* ]`, with the
element parser passed in as `pv`. -/
def parseElemsF (pv : List Char → Option (PyVal × List Char)) :
    Nat → List Char → Option (List PyVal × List Char)
  | 0, _ => Option.none
  | fuel+1, l =>
    match pv l with
    | Option.none => Option.none
    | some (v, r) =>
      match r with
      | ',' :: ' ' :: r2 => (parseElemsF pv fuel r2).map fun p => (v :: p.1, p.2)
      | ']' :: r2 => some ([v], r2)
      | _ => Option.none

/-- One pass of the JSON object-member loop: parses `"k": v (, "k": v)* }`. -/
def parseMembersF (pv : List Char → Option (PyVal × List Char)) :
    Nat → List Char → Option (List (String × PyVal) × List Char)
  | 0, _ => Option.none
  | fuel+1, l =>
    match l with
    | '"' :: r =>
      match parseStrBody r with
      | Option.none => Option.none
      | some (k, r2) =>
        match r2 with
        | ':' :: ' ' :: r3 =>
          match pv r3 with
          | Option.none => Option.none
          | some (v, r4) =>
            match r4 with
            | ',' :: ' ' :: r5 =>
              (parseMembersF pv fuel r5).map fun p => ((String.mk k, v) :: p.1, p.2)
            | '}' :: r5 => some ([(String.mk k, v)], r5)
            | _ => Option.none
        | _ => Option.none
    | _ => Option.none

/-- Fueled JSON value parser (`json.loads` core, modelled from the spec). -/
def parseVal : Nat → List Char → Option (PyVal × List Char)
  | 0, _ => Option.none
  | fuel+1, l =>
    match l with
    | [] => Option.none
    | c :: rest =>
      if c = '"' then (parseStrBody rest).map fun p => (.str (String.mk p.1), p.2)
      else if c = '[' then
        if rest.head? = some ']' then some (.list [], rest.tail)
        else (parseElemsF (parseVal fuel) fuel rest).map fun p => (.list p.1, p.2)
      else if c = '{' then
        if rest.head? = some '}' then some (.dict [], rest.tail)
        else (parseMembersF (parseVal fuel) fuel rest).map fun p => (.dict p.1, p.2)
      else if c = 't' then
        match rest with
        | 'r' :: 'u' :: 'e' :: r => some (.bool true, r)
        | _ => Option.none
      else if c = 'f' then
        match rest with
        | 'a' :: 'l' :: 's' :: 'e' :: r => some (.bool false, r)
        | _ => Option.none
      else if c = 'n' then
        match rest with
        | 'u' :: 'l' :: 'l' :: r => some (.none, r)
        | _ => Option.none
      else parseNum (c :: rest)

/-- `json.loads`: parse a string, `Option.none` standing for a raised
`JSONDecodeError` (modelled from the spec, see above). -/
def loads (s : String) : Option PyVal :=
  match parseVal (s.data.length + 1) s.data with
  | some (v, []) => some v
  | _ => Option.none

/- ## Round trip of the JSON codec -/

/-- A tail that cannot extend a just-parsed number token. -/
def goodTail : List Char → Prop
  | [] => True
  | c :: _ => isDigitCh c = false

mutual

def pySize : PyVal → Nat
  | .list xs => 1 + sizeList xs
  | .dict kvs => 1 + sizeMembers kvs
  | _ => 1

def sizeList : List PyVal → Nat
  | [] => 0
  | x :: xs => 1 + pySize x + sizeList xs

def sizeMembers : List (String × PyVal) → Nat
  | [] => 0
  | (_, v) :: kvs => 1 + pySize v + sizeMembers kvs

end

/- ## The metadata codec of the adapter -/

/-- Python runtime errors raised by the adapter's code paths. -/
inductive PyErr where
  | attributeError
  | typeError
  | indexError
  | valueError
deriving Repr, DecidableEq

/-- Whether a parsed value is a mapping or a sequence. -/
def isStructured : PyVal → Bool
  | .dict _ => true
  | .list _ => true
  | _ => false

/-- The per-value step of `serialize_metadata`: dict/list values are dumped
to JSON strings, everything else passes through. -/
def serializeValue (v : PyVal) : PyVal :=
  match v with
  | .dict _ => .str (dumps v)
  | .list _ => .str (dumps v)
  | _ => v

def serializeEntries (d : List (String × PyVal)) : List (String × PyVal) :=
  d.map fun kv => (kv.1, serializeValue kv.2)

/-- Embeds `ChromaVecDB.serialize_metadata(d)`: iterates `d.items()`, JSON-dumping
dict/list values.  A non-dict argument raises `AttributeError` (no `.items`). -/
def serialize_metadata : PyVal → Except PyErr PyVal
  | .dict kvs => .ok (.dict (serializeEntries kvs))
  | _ => .error .attributeError

/-- The per-value step of `deserialize_metadata`: a string value is tentatively
parsed; if parsing yields a dict or list the parsed value replaces the string,
otherwise (parse failure or scalar result) the string is kept. -/
def deserializeValue (v : PyVal) : PyVal :=
  match v with
  | .str s =>
    match loads s with
    | some (.dict kvs) => .dict kvs
    | some (.list xs) => .list xs
    | _ => .str s
  | _ => v

def deserializeEntries (d : List (String × PyVal)) : List (String × PyVal) :=
  d.map fun kv => (kv.1, deserializeValue kv.2)

/-- Embeds `ChromaVecDB.deserialize_metadata(d)`: iterates `d.items()`, parsing
string values back.  A non-dict argument raises `AttributeError`. -/
def deserialize_metadata : PyVal → Except PyErr PyVal
  | .dict kvs => .ok (.dict (deserializeEntries kvs))
  | _ => .error .attributeError

/- ## Backend model (the wrapped Chroma store, modelled from the spec) -/
mutual

/-- Structural equality on Python values (Python `==`). -/
def pyBeq : PyVal → PyVal → Bool
  | .str x, .str y => x == y
  | .int x, .int y => x == y
  | .bool x, .bool y => x == y
  | .none, .none => true
  | .list xs, .list ys => pyBeqList xs ys
  | .dict xs, .dict ys => pyBeqMembers xs ys
  | _, _ => false

def pyBeqList : List PyVal → List PyVal → Bool
  | [], [] => true
  | x :: xs, y :: ys => pyBeq x y && pyBeqList xs ys
  | _, _ => false

def pyBeqMembers : List (String × PyVal) → List (String × PyVal) → Bool
  | [], [] => true
  | (k, v) :: xs, (l, w) :: ys => k == l && pyBeq v w && pyBeqMembers xs ys
  | _, _ => false

end

/-- Modelled from the spec: a stored backend item — vector, flat metadata
mapping, and document body (§3, §6). -/
structure StoredRecord where
  embedding : List Rat
  metadata : PyVal
  document : PyVal
deriving Repr

/-- Modelled from the spec: a backend collection, "a named, isolated set of
items within the backend, each item keyed by id" (glossary); kept in insertion
order. -/
abbrev Collection := List (String × StoredRecord)

/-- One id's worth of a backend `upsert` call; `Option.none` fields were not
passed in the call. -/
structure UpsertEntry where
  id : String
  embedding : Option (List Rat)
  metadata : Option PyVal
  document : Option PyVal

/-- Modelled from the spec: backend `upsert` — insert-or-replace by id (§3
"upsert semantics: last write wins"); for an existing id the fields not
provided in the call are left unchanged (§4.1 `update`: a payload-only update
leaves vector and document untouched). -/
def patchRecord (r : StoredRecord) (e : UpsertEntry) : StoredRecord :=
  ⟨(e.embedding).getD r.embedding, (e.metadata).getD r.metadata,
   (e.document).getD r.document⟩

def applyUpsert (col : Collection) (e : UpsertEntry) : Collection :=
  if col.any fun p => p.1 == e.id then
    col.map fun p => if p.1 == e.id then (p.1, patchRecord p.2 e) else p
  else
    col ++ [(e.id, patchRecord ⟨[], .dict [], .none⟩ e)]

/-- Modelled from the spec: a metadata (`where`) filter, "a predicate over
payload/metadata fields used to select a subset of items" (glossary); each
key/value pair must match the stored metadata exactly. -/
def matchesWhere (w : List (String × PyVal)) (md : PyVal) : Bool :=
  w.all fun kv =>
    match md with
    | .dict kvs =>
      match kvs.lookup kv.1 with
      | some v => pyBeq v kv.2
      | Option.none => false
    | _ => false

/-- Modelled from the spec: the shape of a backend `get` response,
`{ids, vectors, metadatas, documents}` (§6). -/
structure GetResponse where
  ids : List String
  embeddings : Option (List (List Rat))
  metadatas : Option (List PyVal)
  documents : Option (List PyVal)

/-- Modelled from the spec: backend `get(ids?, filter?, limit?)` (§6): selects
the stored items by id membership and/or metadata filter, up to `limit`. -/
def chromaGet (col : Collection) (idsQ : Option (List String))
    (whereF : Option (List (String × PyVal))) (limit : Option Nat) : GetResponse :=
  let sel0 := col.filter fun p =>
    (match idsQ with
     | some ids => ids.contains p.1
     | Option.none => true) &&
    (match whereF with
     | some w => matchesWhere w p.2.metadata
     | Option.none => true)
  let sel := match limit with
    | some n => sel0.take n
    | Option.none => sel0
  { ids := sel.map fun p => p.1
  , embeddings := some (sel.map fun p => p.2.embedding)
  , metadatas := some (sel.map fun p => p.2.metadata)
  , documents := some (sel.map fun p => p.2.document) }

/- ## The item model and the facade operations -/

/-- The generic item model: id, optional vector, payload, optional score. -/
structure VecDBItem where
  id : String
  vector : Option (List Rat)
  payload : PyVal
  score : Option Rat
deriving Repr

/-- Embeds Python's `payload.get(key)`: the value, or `None` when the key is
absent; a non-dict receiver raises `AttributeError`. -/
def pyGet (v : PyVal) (k : String) : Except PyErr PyVal :=
  match v with
  | .dict kvs =>
    match kvs.lookup k with
    | some w => .ok w
    | Option.none => .ok .none
  | _ => .error .attributeError

/-- Python truthiness of `data.vector`: `None` and the empty list are falsy. -/
def truthyVec : Option (List Rat) → Bool
  | Option.none => false
  | some l => !l.isEmpty

/-- Embeds `ChromaVecDB.get_by_id`: backend `get` by one id; empty response
means not found; otherwise the item is rebuilt with `vector = embeddings[0]`
and `payload = deserialize_metadata(metadatas[0])`.  Subscripting a `None`
field raises `TypeError`. -/
def get_by_id (col : Collection) (id : String) : Except PyErr (Option VecDBItem) :=
  let r := chromaGet col (some [id]) Option.none Option.none
  match r.ids with
  | [] => .ok Option.none
  | i :: _ =>
    match r.embeddings with
    | Option.none => .error .typeError
    | some es =>
      match es with
      | [] => .error .indexError
      | e :: _ =>
        match r.metadatas with
        | Option.none => .error .typeError
        | some ms =>
          match ms with
          | [] => .error .indexError
          | m :: _ =>
            (deserialize_metadata m).map fun p =>
              some { id := i, vector := some e, payload := p, score := Option.none }

/-- Embeds `ChromaVecDB.get_by_ids`: backend `get` by ids.  The comprehension
computes `vector = deserialize_metadata(response["embeddings"][idx])` — an
embedding is a list, not a mapping, so whenever the backend returns embeddings
this raises `AttributeError`; were embeddings absent, the items would carry
`vector = None` and `payload = response["metadatas"][idx]` taken raw, with no
decode step applied. -/
def get_by_ids (col : Collection) (ids : List String) : Except PyErr (List VecDBItem) :=
  let r := chromaGet col (some ids) Option.none Option.none
  match r.ids with
  | [] => .ok []
  | _ :: _ =>
    match r.embeddings with
    | some _ => .error .attributeError
    | Option.none =>
      .ok (r.ids.enum.map fun p =>
        { id := p.2
        , vector := Option.none
        , payload := match r.metadatas with
                     | some ms => ms.getD p.1 .none
                     | Option.none => .none
        , score := Option.none })

/-- Embeds `ChromaVecDB.get_by_filter`: backend `get` with a `where` filter and
a limit (default 100); items are rebuilt exactly as in `get_by_ids`, including
the misdirected `deserialize_metadata(embeddings[idx])` computation. -/
def get_by_filter (col : Collection) (filter : Option (List (String × PyVal)))
    (limit : Nat := 100) : Except PyErr (List VecDBItem) :=
  let r := chromaGet col Option.none filter (some limit)
  match r.ids with
  | [] => .ok []
  | _ :: _ =>
    match r.embeddings with
    | some _ => .error .attributeError
    | Option.none =>
      .ok (r.ids.enum.map fun p =>
        { id := p.2
        , vector := Option.none
        , payload := match r.metadatas with
                     | some ms => ms.getD p.1 .none
                     | Option.none => .none
        , score := Option.none })

/-- Embeds `ChromaVecDB.count`: `len(self.get_by_filter(filter))`, with
`get_by_filter`'s default limit. -/
def count (col : Collection) (filter : Option (List (String × PyVal))) :
    Except PyErr Nat :=
  (get_by_filter col filter).map List.length

/-- Embeds `ChromaVecDB.update`: with a truthy `data.vector` a single backend
upsert rewrites embedding, metadata (`serialize_metadata(data.payload.get("metadata"))`)
and document (`data.payload.get("memory")`); otherwise a single backend upsert
passes metadata only.  The `Nat` counts the backend upsert calls issued. -/
def update (col : Collection) (id : String) (data : VecDBItem) :
    Except PyErr (Collection × Nat) :=
  if truthyVec data.vector then
    (pyGet data.payload "metadata").bind fun md =>
    (serialize_metadata md).bind fun smd =>
    (pyGet data.payload "memory").bind fun mem =>
    .ok (applyUpsert col ⟨id, data.vector, some smd, some mem⟩, 1)
  else
    (pyGet data.payload "metadata").bind fun md =>
    (serialize_metadata md).bind fun smd =>
    .ok (applyUpsert col ⟨id, Option.none, some smd, Option.none⟩, 1)

/- ## Similarity search -/

/-- Modelled from the spec: the similarity measure lives inside the backend
engine (out of scope, §1); squared Euclidean distance stands in for it here —
no claim depends on the metric itself. -/
def sqDist (a b : List Rat) : Rat :=
  ((a.zip b).map fun p => (p.1 - p.2) * (p.1 - p.2)).sum

def containsSub (hay sub : List Char) : Bool :=
  hay.tails.any fun t => sub.isPrefixOf t

/-- Modelled from the spec: the backend's document-filter grammar — a
`where_document` filter must be a single `$contains` operator over a string;
anything else is rejected with `ValueError`. -/
def validDocFilter : List (String × PyVal) → Bool
  | [(k, .str _)] => k == "$contains"
  | _ => false

/-- Modelled from the spec: a `$contains` document filter matches items whose
document body contains the given substring. -/
def docMatches (w : List (String × PyVal)) (doc : PyVal) : Bool :=
  match w, doc with
  | [(_, .str sub)], .str s => containsSub s.data sub.data
  | _, _ => false

/-- Modelled from the spec: the shape of a backend `query` response, "nested
one level deeper than `get`, per single-query-batch convention" (§6). -/
structure QueryResponse where
  ids : List (List String)
  embeddings : Option (List (List (List Rat)))
  metadatas : Option (List (List PyVal))
  distances : List (List Rat)

/-- Modelled from the spec: backend `query(vector, topK, ...)` (§6).  The
backend distinguishes a metadata (`where`) filter from a document-content
(`where_document`) filter; the document filter is validated first.  Candidates
are returned best match first with their distances. -/
def chromaQuery (col : Collection) (qv : List Rat) (topK : Nat)
    (whereF : Option (List (String × PyVal)))
    (whereDoc : Option (List (String × PyVal))) : Except PyErr QueryResponse :=
  let bad := match whereDoc with
    | some wd => !validDocFilter wd
    | Option.none => false
  if bad then .error .valueError
  else
    let cand := col.filter fun p =>
      (match whereF with
       | some w => matchesWhere w p.2.metadata
       | Option.none => true) &&
      (match whereDoc with
       | some wd => docMatches wd p.2.document
       | Option.none => true)
    let sorted := cand.insertionSort fun p q =>
      sqDist qv p.2.embedding ≤ sqDist qv q.2.embedding
    let top := sorted.take topK
    .ok { ids := [top.map fun p => p.1]
        , embeddings := some [top.map fun p => p.2.embedding]
        , metadatas := some [top.map fun p => p.2.metadata]
        , distances := [top.map fun p => sqDist qv p.2.embedding] }

/-- Embeds `ChromaVecDB.search`: the caller's `filter` is passed as the
`where_document` argument of the backend query, and no `where` filter is
passed.  Result items carry `score = distances[0][idx]` and payloads decoded
with `deserialize_metadata`. -/
def search (col : Collection) (query_vector : List Rat) (top_k : Nat)
    (filter : Option (List (String × PyVal))) : Except PyErr (List VecDBItem) :=
  (chromaQuery col query_vector top_k Option.none filter).bind fun r =>
    let ids0 := r.ids.getD 0 []
    let dist0 := r.distances.getD 0 []
    ids0.enum.mapM fun p =>
      (match r.metadatas with
       | some mss => deserialize_metadata ((mss.getD 0 []).getD p.1 (.dict []))
       | Option.none => .ok .none).map fun payload =>
        { id := p.2
        , vector := match r.embeddings with
                    | some ess => some ((ess.getD 0 []).getD p.1 [])
                    | Option.none => Option.none
        , payload := payload
        , score := if dist0.isEmpty then Option.none else some (dist0.getD p.1 0) }

/- ## Collection management -/

/-- Embeds `ChromaVecDB.collection_exists`: probe the backend for the name,
any failure counting as "does not exist".  The backend registry is modelled
from the spec as the set of existing collection names (§6). -/
def collection_exists (st : List String) (name : String) : Bool := st.contains name

/-- Embeds `ChromaVecDB.create_collection`: if the collection already exists,
log and skip; otherwise call the backend create endpoint.  The Bool records
whether the backend `create_collection` call was made. -/
def create_collection (st : List String) (name : String) : List String × Bool :=
  if collection_exists st name then (st, false) else (st ++ [name], true)

/-- The backend calls `get_collection` can make, for call traces. -/
inductive ClientCall where
  | getColl
  | createColl
deriving Repr, DecidableEq

/-- Embeds `ChromaVecDB.get_collection`: `fetch1` is the backend's response to
the initial `client.get_collection` call; on any failure the adapter runs
`create_collection` and retries the fetch exactly once, `fetch2` being the
backend's response to that retry, returned as is.  The trace records the
facade-level backend calls made. -/
def get_collection {H E : Type} (fetch1 fetch2 : Except E H) :
    Except E H × List ClientCall :=
  match fetch1 with
  | .ok h => (.ok h, [.getColl])
  | .error _ => (fetch2, [.getColl, .createColl, .getColl])

def c1d : List (String × PyVal) :=
  [("m", .dict [("a", .int 1)]), ("l", .list [.str "u", .bool true]),
   ("s", .str "w"), ("num", .str "37"), ("b", .bool false), ("n", .int 5)]

def exCol3 : Collection := [("a", ⟨[9], .dict [("old", .str "o")], .str "d"⟩)]

def exItem3 : VecDBItem :=
  ⟨"a", some [1], .dict [("metadata", .dict [("tag", .str "x")]), ("memory", .str "m")],
   Option.none⟩

def exCol3' : Collection := [("a", ⟨[1], .dict [("tag", .str "x")], .str "m"⟩)]

theorem charToDigit_digitToChar {d : Nat} (h : d < 10) :
    charToDigit (digitToChar d) = d := by
  interval_cases d <;> decide

theorem isDigitCh_digitToChar {d : Nat} (h : d < 10) :
    isDigitCh (digitToChar d) = true := by
  interval_cases d <;> decide

theorem natDigitsAux_ne_nil {fuel n : Nat} (hn : n ≠ 0) (hf : fuel ≠ 0) :
    natDigitsAux fuel n ≠ [] := by
  cases fuel with
  | zero => exact absurd rfl hf
  | succ f =>
    cases n with
    | zero => exact absurd rfl hn
    | succ m => simp [natDigitsAux]

theorem printNat_ne_nil (n : Nat) : printNat n ≠ [] := by
  unfold printNat
  split
  · simp
  · next h => exact natDigitsAux_ne_nil h (by omega)

theorem natDigitsAux_digits :
    ∀ (fuel n : Nat), ∀ c ∈ natDigitsAux fuel n, isDigitCh c = true := by
  intro fuel
  induction fuel with
  | zero => intro n c hc; simp [natDigitsAux] at hc
  | succ f ih =>
    intro n c hc
    cases n with
    | zero => simp [natDigitsAux] at hc
    | succ m =>
      simp only [natDigitsAux, List.mem_append, List.mem_singleton] at hc
      rcases hc with hc | rfl
      · exact ih _ c hc
      · exact isDigitCh_digitToChar (Nat.mod_lt _ (by omega))

theorem printNat_digits {n : Nat} {c : Char} (h : c ∈ printNat n) : isDigitCh c = true := by
  unfold printNat at h
  split at h
  · simp at h
    subst h
    decide
  · exact natDigitsAux_digits _ _ c h

theorem natDigitsAux_foldl :
    ∀ (fuel n : Nat), n ≤ fuel → ∀ init : Nat,
      (natDigitsAux fuel n).foldl (fun a c => 10 * a + charToDigit c) init =
        init * 10 ^ (natDigitsAux fuel n).length + n := by
  intro fuel
  induction fuel with
  | zero =>
    intro n hn init
    have : n = 0 := by omega
    subst this
    simp [natDigitsAux]
  | succ f ih =>
    intro n hn init
    cases n with
    | zero => simp [natDigitsAux]
    | succ m =>
      have hdiv : (m + 1) / 10 ≤ f := by omega
      simp only [natDigitsAux, List.foldl_append, List.foldl_cons, List.foldl_nil,
        List.length_append, List.length_singleton]
      rw [ih _ hdiv init, charToDigit_digitToChar (Nat.mod_lt _ (by omega : (0:Nat) < 10))]
      have := Nat.div_add_mod (m + 1) 10
      rw [pow_succ]
      ring_nf
      omega

theorem digitsToNat_printNat (n : Nat) : digitsToNat (printNat n) = n := by
  unfold printNat digitsToNat
  split
  · next h => subst h; decide
  · rw [natDigitsAux_foldl (n + 1) n (by omega) 0]
    simp

theorem spanDigits_append {ds rest : List Char} (hds : ∀ c ∈ ds, isDigitCh c = true)
    (hrest : goodTail rest) : spanDigits (ds ++ rest) = (ds, rest) := by
  induction ds with
  | nil =>
    cases rest with
    | nil => rfl
    | cons c cs =>
      have hc : isDigitCh c = false := hrest
      simp [spanDigits, hc]
  | cons c cs ih =>
    have hc : isDigitCh c = true := hds c (by simp)
    have hcs : ∀ x ∈ cs, isDigitCh x = true := fun x hx => hds x (by simp [hx])
    simp [spanDigits, hc, ih hcs]

theorem digit_ne {c : Char} (h : isDigitCh c = true) :
    c ≠ '-' ∧ c ≠ '"' ∧ c ≠ '[' ∧ c ≠ '{' ∧ c ≠ 't' ∧ c ≠ 'f' ∧ c ≠ 'n' ∧
      c ≠ ']' ∧ c ≠ '}' ∧ c ≠ ',' ∧ c ≠ ' ' := by
  refine ⟨?_, ?_, ?_, ?_, ?_, ?_, ?_, ?_, ?_, ?_, ?_⟩ <;>
    (rintro rfl; revert h; decide)

theorem parseNum_printInt (i : Int) {rest : List Char} (h : goodTail rest) :
    parseNum (printInt i ++ rest) = some (.int i, rest) := by
  cases i with
  | ofNat n =>
    have hneg : ¬((Int.ofNat n) < 0) := Int.not_lt.mpr (Int.ofNat_zero_le n)
    obtain ⟨c, cs, hc⟩ := List.exists_cons_of_ne_nil (printNat_ne_nil n)
    have hcd : isDigitCh c = true := printNat_digits (by rw [hc]; exact List.mem_cons_self c cs)
    have hspan : spanDigits (printNat n ++ rest) = (printNat n, rest) :=
      spanDigits_append (fun x hx => printNat_digits hx) h
    unfold printInt
    rw [if_neg hneg]
    unfold parseNum
    rw [show (Int.ofNat n).toNat = n from rfl, hc]
    rw [List.cons_append]
    have hnd : ¬((c :: (cs ++ rest)).head? = some '-') := by
      simp only [List.head?, Option.some.injEq]
      exact (digit_ne hcd).1
    rw [if_neg hnd]
    rw [← List.cons_append, ← hc, hspan]
    rw [if_neg (printNat_ne_nil n)]
    rw [digitsToNat_printNat n]
    rfl
  | negSucc n =>
    have hpos : (Int.negSucc n) < 0 := Int.negSucc_lt_zero n
    have habs : (Int.negSucc n).natAbs = n + 1 := rfl
    have hspan : spanDigits (printNat (n + 1) ++ rest) = (printNat (n + 1), rest) :=
      spanDigits_append (fun x hx => printNat_digits hx) h
    unfold printInt
    rw [if_pos hpos, habs]
    unfold parseNum
    rw [List.cons_append]
    rw [if_pos (show (('-' :: (printNat (n+1) ++ rest)).head? = some '-') from rfl)]
    rw [show ('-' :: (printNat (n+1) ++ rest)).tail = printNat (n+1) ++ rest from rfl]
    rw [hspan]
    rw [if_neg (printNat_ne_nil (n + 1))]
    rw [digitsToNat_printNat (n + 1)]
    have hns : -((n + 1 : Nat) : Int) = Int.negSucc n := by omega
    rw [hns]

theorem parseStrBody_esc (l : List Char) (rest : List Char) :
    parseStrBody (l.flatMap escChar ++ '"' :: rest) = some (l, rest) := by
  induction l with
  | nil =>
    simp only [List.flatMap_nil, List.nil_append]
    unfold parseStrBody
    rw [if_pos rfl]
  | cons c cs ih =>
    by_cases hc : c = '"' ∨ c = '\\'
    · simp only [List.flatMap_cons, escChar, if_pos hc, List.cons_append, List.append_assoc]
      unfold parseStrBody
      rw [if_neg (by decide : ¬(('\\' : Char) = '"')), if_pos rfl]
      simp [ih]
    · push_neg at hc
      simp only [List.flatMap_cons, escChar, if_neg (by tauto : ¬(c = '"' ∨ c = '\\')),
        List.cons_append, List.singleton_append]
      unfold parseStrBody
      rw [if_neg hc.1, if_neg hc.2]
      simp [ih]

theorem pySize_pos (v : PyVal) : 1 ≤ pySize v := by
  cases v <;> simp [pySize]

theorem length_le_sizeList (xs : List PyVal) : xs.length ≤ sizeList xs := by
  induction xs with
  | nil => simp [sizeList]
  | cons x xs ih => simp only [List.length_cons, sizeList]; omega

theorem pySize_le_sizeList {x : PyVal} {xs : List PyVal} (h : x ∈ xs) :
    pySize x ≤ sizeList xs := by
  induction xs with
  | nil => simp at h
  | cons y ys ih =>
    rcases List.mem_cons.mp h with rfl | h2
    · simp only [sizeList]; omega
    · have := ih h2; simp only [sizeList]; omega

theorem length_le_sizeMembers (kvs : List (String × PyVal)) :
    kvs.length ≤ sizeMembers kvs := by
  induction kvs with
  | nil => simp [sizeMembers]
  | cons kv kvs ih =>
    obtain ⟨k, v⟩ := kv
    simp only [List.length_cons, sizeMembers]; omega

theorem pySize_le_sizeMembers {kv : String × PyVal} {kvs : List (String × PyVal)}
    (h : kv ∈ kvs) : pySize kv.2 ≤ sizeMembers kvs := by
  induction kvs with
  | nil => simp at h
  | cons m ms ih =>
    obtain ⟨k, v⟩ := m
    rcases List.mem_cons.mp h with rfl | h2
    · simp only [sizeMembers]; omega
    · have := ih h2; simp only [sizeMembers]; omega

theorem printInt_cons (i : Int) :
    ∃ c cs, printInt i = c :: cs ∧ (c = '-' ∨ isDigitCh c = true) := by
  unfold printInt
  split
  · exact ⟨'-', _, rfl, Or.inl rfl⟩
  · obtain ⟨c, cs, hc⟩ := List.exists_cons_of_ne_nil (printNat_ne_nil i.toNat)
    exact ⟨c, cs, hc, Or.inr (printNat_digits (by rw [hc]; exact List.mem_cons_self c cs))⟩

theorem printInt_head_ne {c : Char} (h : c = '-' ∨ isDigitCh c = true) :
    c ≠ '"' ∧ c ≠ '[' ∧ c ≠ '{' ∧ c ≠ 't' ∧ c ≠ 'f' ∧ c ≠ 'n' := by
  rcases h with rfl | hd
  · exact ⟨by decide, by decide, by decide, by decide, by decide, by decide⟩
  · have h2 := digit_ne hd
    exact ⟨h2.2.1, h2.2.2.1, h2.2.2.2.1, h2.2.2.2.2.1, h2.2.2.2.2.2.1, h2.2.2.2.2.2.2.1⟩

theorem printVal_cons (v : PyVal) :
    ∃ c cs, printVal v = c :: cs ∧ c ≠ ']' ∧ c ≠ '}' := by
  cases v with
  | str s =>
    exact ⟨'"', s.data.flatMap escChar ++ ['"'], by simp [printVal, printStr], by decide,
      by decide⟩
  | int i =>
    obtain ⟨c, cs, hc, hcl⟩ := printInt_cons i
    refine ⟨c, cs, by simp [printVal, hc], ?_, ?_⟩
    · rcases hcl with rfl | hd
      · decide
      · exact (digit_ne hd).2.2.2.2.2.2.2.1
    · rcases hcl with rfl | hd
      · decide
      · exact (digit_ne hd).2.2.2.2.2.2.2.2.1
  | bool b =>
    cases b with
    | true => exact ⟨'t', ['r', 'u', 'e'], by simp [printVal], by decide, by decide⟩
    | false => exact ⟨'f', ['a', 'l', 's', 'e'], by simp [printVal], by decide, by decide⟩
  | none => exact ⟨'n', ['u', 'l', 'l'], by simp [printVal], by decide, by decide⟩
  | list xs => exact ⟨'[', printElems xs ++ [']'], by simp [printVal], by decide, by decide⟩
  | dict kvs =>
    exact ⟨'{', printMembers kvs ++ ['}'], by simp [printVal], by decide, by decide⟩

theorem printElems_cons (x : PyVal) (xs : List PyVal) :
    ∃ t, printElems (x :: xs) = printVal x ++ t := by
  cases xs with
  | nil => exact ⟨[], by simp [printElems]⟩
  | cons y ys => exact ⟨',' :: ' ' :: printElems (y :: ys), by simp [printElems]⟩

theorem printMembers_head (k : String) (v : PyVal) (kvs : List (String × PyVal)) :
    ∃ t, printMembers ((k, v) :: kvs) = '"' :: t := by
  cases kvs with
  | nil =>
    exact ⟨k.data.flatMap escChar ++ '"' :: ':' :: ' ' :: printVal v,
      by simp [printMembers, printStr]⟩
  | cons m ms =>
    exact ⟨k.data.flatMap escChar ++ '"' :: ':' :: ' ' ::
        (printVal v ++ ',' :: ' ' :: printMembers (m :: ms)),
      by simp [printMembers, printStr]⟩

theorem goodTail_cons {c : Char} (h : isDigitCh c = false) (rest : List Char) :
    goodTail (c :: rest) := h

theorem parseElemsF_succ (pv : List Char → Option (PyVal × List Char)) (fuel : Nat)
    (l : List Char) :
    parseElemsF pv (fuel + 1) l =
      match pv l with
      | Option.none => Option.none
      | some (v, r) =>
        match r with
        | ',' :: ' ' :: r2 => (parseElemsF pv fuel r2).map fun p => (v :: p.1, p.2)
        | ']' :: r2 => some ([v], r2)
        | _ => Option.none := rfl

theorem parseElemsF_print {pv : List Char → Option (PyVal × List Char)} :
    ∀ xs : List PyVal, xs ≠ [] →
      (∀ x ∈ xs, ∀ tail, goodTail tail → pv (printVal x ++ tail) = some (x, tail)) →
      ∀ fuel : Nat, xs.length ≤ fuel →
      ∀ rest : List Char,
        parseElemsF pv fuel (printElems xs ++ ']' :: rest) = some (xs, rest) := by
  intro xs
  induction xs with
  | nil => intro h; exact absurd rfl h
  | cons x ys ih =>
    intro _ hpv fuel hfuel rest
    cases fuel with
    | zero => simp at hfuel
    | succ f =>
      cases ys with
      | nil =>
        have hx := hpv x (by simp) (']' :: rest) (goodTail_cons (by decide) rest)
        have hpe : printElems [x] = printVal x := by simp [printElems]
        rw [hpe, parseElemsF_succ, hx]
        rfl
      | cons y ys2 =>
        have hx := hpv x (by simp)
          (',' :: ' ' :: (printElems (y :: ys2) ++ ']' :: rest))
          (goodTail_cons (by decide) _)
        have hpe : printElems (x :: y :: ys2) =
            printVal x ++ ',' :: ' ' :: printElems (y :: ys2) := by simp [printElems]
        have ihr := ih (by simp) (fun z hz => hpv z (by simp [hz])) f
          (by simp at hfuel ⊢; omega) rest
        rw [hpe, List.append_assoc, List.cons_append, List.cons_append,
          parseElemsF_succ, hx]
        show (parseElemsF pv f (printElems (y :: ys2) ++ ']' :: rest)).map
            (fun p => (x :: p.1, p.2)) = some (x :: y :: ys2, rest)
        rw [ihr]
        rfl

theorem parseMembersF_succ (pv : List Char → Option (PyVal × List Char)) (fuel : Nat)
    (l : List Char) :
    parseMembersF pv (fuel + 1) l =
      match l with
      | '"' :: r =>
        match parseStrBody r with
        | Option.none => Option.none
        | some (k, r2) =>
          match r2 with
          | ':' :: ' ' :: r3 =>
            match pv r3 with
            | Option.none => Option.none
            | some (v, r4) =>
              match r4 with
              | ',' :: ' ' :: r5 =>
                (parseMembersF pv fuel r5).map fun p => ((String.mk k, v) :: p.1, p.2)
              | '}' :: r5 => some ([(String.mk k, v)], r5)
              | _ => Option.none
          | _ => Option.none
      | _ => Option.none := rfl

theorem parseMembersF_print {pv : List Char → Option (PyVal × List Char)} :
    ∀ kvs : List (String × PyVal), kvs ≠ [] →
      (∀ kv ∈ kvs, ∀ tail, goodTail tail → pv (printVal kv.2 ++ tail) = some (kv.2, tail)) →
      ∀ fuel : Nat, kvs.length ≤ fuel →
      ∀ rest : List Char,
        parseMembersF pv fuel (printMembers kvs ++ '}' :: rest) = some (kvs, rest) := by
  intro kvs
  induction kvs with
  | nil => intro h; exact absurd rfl h
  | cons kv ms ih =>
    obtain ⟨k, v⟩ := kv
    intro _ hpv fuel hfuel rest
    cases fuel with
    | zero => simp at hfuel
    | succ f =>
      cases ms with
      | nil =>
        have hx : pv (printVal v ++ '}' :: rest) = some (v, '}' :: rest) :=
          hpv (k, v) (by simp) ('}' :: rest) (goodTail_cons (by decide) rest)
        have hpm : printMembers [(k, v)] = printStr k ++ ':' :: ' ' :: printVal v := by
          simp [printMembers]
        rw [hpm, printStr]
        simp only [List.cons_append, List.append_assoc, List.singleton_append]
        rw [parseMembersF_succ]
        show (match parseStrBody
              (k.data.flatMap escChar ++ '"' :: (':' :: ' ' :: (printVal v ++ '}' :: rest))) with
          | Option.none => Option.none
          | some (k2, r2) =>
            match r2 with
            | ':' :: ' ' :: r3 =>
              match pv r3 with
              | Option.none => Option.none
              | some (v2, r4) =>
                match r4 with
                | ',' :: ' ' :: r5 =>
                  (parseMembersF pv f r5).map fun p => ((String.mk k2, v2) :: p.1, p.2)
                | '}' :: r5 => some ([(String.mk k2, v2)], r5)
                | _ => Option.none
            | _ => Option.none) = some ([(k, v)], rest)
        rw [parseStrBody_esc]
        show (match pv (printVal v ++ '}' :: rest) with
          | Option.none => Option.none
          | some (v2, r4) =>
            match r4 with
            | ',' :: ' ' :: r5 =>
              (parseMembersF pv f r5).map fun p => ((String.mk k.data, v2) :: p.1, p.2)
            | '}' :: r5 => some ([(String.mk k.data, v2)], r5)
            | _ => Option.none) = some ([(k, v)], rest)
        rw [hx]
        rfl
      | cons m ms2 =>
        have hx : pv (printVal v ++ ',' :: ' ' :: (printMembers (m :: ms2) ++ '}' :: rest)) =
            some (v, ',' :: ' ' :: (printMembers (m :: ms2) ++ '}' :: rest)) :=
          hpv (k, v) (by simp) _ (goodTail_cons (by decide) _)
        have hpm : printMembers ((k, v) :: m :: ms2) =
            (printStr k ++ ':' :: ' ' :: printVal v) ++
              ',' :: ' ' :: printMembers (m :: ms2) := by simp [printMembers]
        have ihr := ih (by simp) (fun z hz => hpv z (by simp [hz])) f
          (by simp at hfuel ⊢; omega) rest
        rw [hpm, printStr]
        simp only [List.cons_append, List.append_assoc, List.singleton_append]
        rw [parseMembersF_succ]
        show (match parseStrBody
              (k.data.flatMap escChar ++ '"' ::
                (':' :: ' ' :: (printVal v ++
                  ',' :: ' ' :: (printMembers (m :: ms2) ++ '}' :: rest)))) with
          | Option.none => Option.none
          | some (k2, r2) =>
            match r2 with
            | ':' :: ' ' :: r3 =>
              match pv r3 with
              | Option.none => Option.none
              | some (v2, r4) =>
                match r4 with
                | ',' :: ' ' :: r5 =>
                  (parseMembersF pv f r5).map fun p => ((String.mk k2, v2) :: p.1, p.2)
                | '}' :: r5 => some ([(String.mk k2, v2)], r5)
                | _ => Option.none
            | _ => Option.none) = some ((k, v) :: m :: ms2, rest)
        rw [parseStrBody_esc]
        show (match pv (printVal v ++ ',' :: ' ' :: (printMembers (m :: ms2) ++ '}' :: rest)) with
          | Option.none => Option.none
          | some (v2, r4) =>
            match r4 with
            | ',' :: ' ' :: r5 =>
              (parseMembersF pv f r5).map fun p => ((String.mk k.data, v2) :: p.1, p.2)
            | '}' :: r5 => some ([(String.mk k.data, v2)], r5)
            | _ => Option.none) = some ((k, v) :: m :: ms2, rest)
        rw [hx]
        show (parseMembersF pv f (printMembers (m :: ms2) ++ '}' :: rest)).map
            (fun p => ((String.mk k.data, v) :: p.1, p.2)) = some ((k, v) :: m :: ms2, rest)
        rw [ihr]
        rfl

theorem parseVal_cons_eq (fuel : Nat) (c : Char) (rest : List Char) :
    parseVal (fuel + 1) (c :: rest) =
      (if c = '"' then (parseStrBody rest).map fun p => (.str (String.mk p.1), p.2)
      else if c = '[' then
        if rest.head? = some ']' then some (.list [], rest.tail)
        else (parseElemsF (parseVal fuel) fuel rest).map fun p => (.list p.1, p.2)
      else if c = '{' then
        if rest.head? = some '}' then some (.dict [], rest.tail)
        else (parseMembersF (parseVal fuel) fuel rest).map fun p => (.dict p.1, p.2)
      else if c = 't' then
        match rest with
        | 'r' :: 'u' :: 'e' :: r => some (.bool true, r)
        | _ => Option.none
      else if c = 'f' then
        match rest with
        | 'a' :: 'l' :: 's' :: 'e' :: r => some (.bool false, r)
        | _ => Option.none
      else if c = 'n' then
        match rest with
        | 'u' :: 'l' :: 'l' :: r => some (.none, r)
        | _ => Option.none
      else parseNum (c :: rest)) := rfl

theorem parseVal_printVal :
    ∀ (n : Nat) (v : PyVal) (rest : List Char), pySize v ≤ n → goodTail rest →
      parseVal n (printVal v ++ rest) = some (v, rest) := by
  intro n
  induction n with
  | zero =>
    intro v rest h _
    have := pySize_pos v
    omega
  | succ n ih =>
    intro v rest hsz htail
    cases v with
    | str s =>
      have hps : printVal (.str s) = '"' :: (s.data.flatMap escChar ++ ['"']) := by
        simp [printVal, printStr]
      rw [hps, List.cons_append, List.append_assoc, List.singleton_append,
        parseVal_cons_eq, if_pos rfl, parseStrBody_esc]
      rfl
    | int i =>
      obtain ⟨c, cs, hc, hcl⟩ := printInt_cons i
      have hne := printInt_head_ne hcl
      have hpv : printVal (.int i) = printInt i := by simp [printVal]
      rw [hpv, hc, List.cons_append, parseVal_cons_eq, if_neg hne.1, if_neg hne.2.1,
        if_neg hne.2.2.1, if_neg hne.2.2.2.1, if_neg hne.2.2.2.2.1, if_neg hne.2.2.2.2.2,
        ← List.cons_append, ← hc]
      exact parseNum_printInt i htail
    | bool b =>
      cases b with
      | true =>
        have hps : printVal (.bool true) = ['t', 'r', 'u', 'e'] := by simp [printVal]
        rw [hps]
        rfl
      | false =>
        have hps : printVal (.bool false) = ['f', 'a', 'l', 's', 'e'] := by simp [printVal]
        rw [hps]
        rfl
    | none =>
      have hps : printVal .none = ['n', 'u', 'l', 'l'] := by simp [printVal]
      rw [hps]
      rfl
    | list xs =>
      cases xs with
      | nil =>
        have hps : printVal (.list []) = ['[', ']'] := by simp [printVal, printElems]
        rw [hps]
        rfl
      | cons x ys =>
        have hps : printVal (.list (x :: ys)) = '[' :: (printElems (x :: ys) ++ [']']) := by
          simp [printVal]
        rw [hps, List.cons_append, List.append_assoc, List.singleton_append,
          parseVal_cons_eq, if_neg (by decide : ¬(('[' : Char) = '"')), if_pos rfl]
        obtain ⟨c0, cs0, hc0, hne1, _⟩ := printVal_cons x
        obtain ⟨t, ht⟩ := printElems_cons x ys
        have hhead : ¬((printElems (x :: ys) ++ ']' :: rest).head? = some ']') := by
          rw [ht, hc0]
          simp [hne1]
        rw [if_neg hhead]
        have hsz' : sizeList (x :: ys) ≤ n := by
          have heq : pySize (.list (x :: ys)) = 1 + sizeList (x :: ys) := by simp [pySize]
          omega
        rw [parseElemsF_print (x :: ys) (by simp)
          (fun z hz tail htail2 => ih z tail (le_trans (pySize_le_sizeList hz) hsz') htail2)
          n (le_trans (length_le_sizeList _) hsz') rest]
        rfl
    | dict kvs =>
      cases kvs with
      | nil =>
        have hps : printVal (.dict []) = ['{', '}'] := by simp [printVal, printMembers]
        rw [hps]
        rfl
      | cons kv ms =>
        obtain ⟨k, v⟩ := kv
        have hps : printVal (.dict ((k, v) :: ms)) =
            '{' :: (printMembers ((k, v) :: ms) ++ ['}']) := by simp [printVal]
        rw [hps, List.cons_append, List.append_assoc, List.singleton_append,
          parseVal_cons_eq, if_neg (by decide : ¬(('{' : Char) = '"')),
          if_neg (by decide : ¬(('{' : Char) = '[')), if_pos rfl]
        obtain ⟨t, ht⟩ := printMembers_head k v ms
        have hhead : ¬((printMembers ((k, v) :: ms) ++ '}' :: rest).head? = some '}') := by
          rw [ht]
          simp
        rw [if_neg hhead]
        have hsz' : sizeMembers ((k, v) :: ms) ≤ n := by
          have heq : pySize (.dict ((k, v) :: ms)) = 1 + sizeMembers ((k, v) :: ms) := by
            simp [pySize]
          omega
        rw [parseMembersF_print ((k, v) :: ms) (by simp)
          (fun z hz tail htail2 => ih z.2 tail (le_trans (pySize_le_sizeMembers hz) hsz') htail2)
          n (le_trans (length_le_sizeMembers _) hsz') rest]
        rfl

theorem sizes_le :
    ∀ n : Nat,
      (∀ v : PyVal, sizeOf v ≤ n → pySize v ≤ (printVal v).length) ∧
      (∀ xs : List PyVal, sizeOf xs ≤ n → sizeList xs ≤ (printElems xs).length + 1) ∧
      (∀ kvs : List (String × PyVal), sizeOf kvs ≤ n →
        sizeMembers kvs ≤ (printMembers kvs).length + 1) := by
  intro n
  induction n with
  | zero =>
    refine ⟨fun v hv => absurd hv ?_, fun xs hxs => absurd hxs ?_, fun kvs hkvs => absurd hkvs ?_⟩
    · cases v <;> simp
    · cases xs <;> simp
    · cases kvs <;> simp
  | succ n ih =>
    obtain ⟨ihv, ihl, ihm⟩ := ih
    refine ⟨?_, ?_, ?_⟩
    · intro v hv
      cases v with
      | str s => simp [pySize, printVal, printStr]
      | int i =>
        obtain ⟨c, cs, hc, _⟩ := printInt_cons i
        have : printVal (.int i) = printInt i := by simp [printVal]
        rw [this, hc]
        simp [pySize]
      | bool b => cases b <;> simp [pySize, printVal]
      | none => simp [pySize, printVal]
      | list xs =>
        have hx : sizeOf xs ≤ n := by simp at hv; omega
        have := ihl xs hx
        have heq : printVal (.list xs) = '[' :: (printElems xs ++ [']']) := by simp [printVal]
        have heq2 : pySize (.list xs) = 1 + sizeList xs := by simp [pySize]
        rw [heq, heq2]
        simp only [List.length_cons, List.length_append, List.length_singleton]
        omega
      | dict kvs =>
        have hx : sizeOf kvs ≤ n := by simp at hv; omega
        have := ihm kvs hx
        have heq : printVal (.dict kvs) = '{' :: (printMembers kvs ++ ['}']) := by
          simp [printVal]
        have heq2 : pySize (.dict kvs) = 1 + sizeMembers kvs := by simp [pySize]
        rw [heq, heq2]
        simp only [List.length_cons, List.length_append, List.length_singleton]
        omega
    · intro xs hxs
      cases xs with
      | nil => simp [sizeList]
      | cons x ys =>
        cases ys with
        | nil =>
          have hx : sizeOf x ≤ n := by simp at hxs; omega
          have := ihv x hx
          have heq : printElems [x] = printVal x := by simp [printElems]
          rw [heq]
          simp only [sizeList]
          omega
        | cons y ys2 =>
          have hx : sizeOf x ≤ n := by simp at hxs; omega
          have hy : sizeOf (y :: ys2) ≤ n := by simp at hxs ⊢; omega
          have h1 := ihv x hx
          have h2 := ihl (y :: ys2) hy
          have heq : printElems (x :: y :: ys2) =
              printVal x ++ ',' :: ' ' :: printElems (y :: ys2) := by simp [printElems]
          rw [heq]
          simp only [sizeList, List.length_append, List.length_cons]
          simp only [sizeList] at h2
          omega
    · intro kvs hkvs
      cases kvs with
      | nil => simp [sizeMembers]
      | cons kv ms =>
        obtain ⟨k, v⟩ := kv
        cases ms with
        | nil =>
          have hx : sizeOf v ≤ n := by simp at hkvs; omega
          have := ihv v hx
          have heq : printMembers [(k, v)] = printStr k ++ ':' :: ' ' :: printVal v := by
            simp [printMembers]
          rw [heq]
          simp only [sizeMembers, List.length_append, List.length_cons]
          omega
        | cons m ms2 =>
          have hx : sizeOf v ≤ n := by simp at hkvs; omega
          have hy : sizeOf (m :: ms2) ≤ n := by simp at hkvs ⊢; omega
          have h1 := ihv v hx
          have h2 := ihm (m :: ms2) hy
          have heq : printMembers ((k, v) :: m :: ms2) =
              (printStr k ++ ':' :: ' ' :: printVal v) ++
                ',' :: ' ' :: printMembers (m :: ms2) := by simp [printMembers]
          rw [heq]
          simp only [sizeMembers, List.length_append, List.length_cons]
          simp only [sizeMembers] at h2
          omega

theorem pySize_le_printVal (v : PyVal) : pySize v ≤ (printVal v).length :=
  (sizes_le (sizeOf v)).1 v le_rfl

/-- The JSON codec round trip: parsing the printed form of any value
recovers the value exactly. -/
theorem loads_dumps (v : PyVal) : loads (dumps v) = some v := by
  have h1 : pySize v ≤ (printVal v).length + 1 :=
    le_trans (pySize_le_printVal v) (Nat.le_succ _)
  have h2 := parseVal_printVal ((printVal v).length + 1) v [] h1 trivial
  rw [List.append_nil] at h2
  unfold loads dumps
  rw [show (String.mk (printVal v)).data = printVal v from rfl]
  rw [h2]

theorem deserializeValue_serializeValue {v : PyVal}
    (h : ∀ s, v = .str s → ((loads s).all fun r => !isStructured r) = true) :
    deserializeValue (serializeValue v) = v := by
  cases v with
  | str s =>
    have hs := h s rfl
    show deserializeValue (.str s) = .str s
    unfold deserializeValue
    cases hl : loads s with
    | none => simp only [hl]
    | some r =>
      rw [hl] at hs
      simp only [Option.all_some, Bool.not_eq_true'] at hs
      simp only [hl]
      cases r with
      | dict kvs => simp [isStructured] at hs
      | list xs => simp [isStructured] at hs
      | str s2 => rfl
      | int n => rfl
      | bool b => rfl
      | none => rfl
  | dict kvs =>
    show (match loads (dumps (PyVal.dict kvs)) with
      | some (PyVal.dict kvs2) => PyVal.dict kvs2
      | some (PyVal.list xs2) => PyVal.list xs2
      | _ => PyVal.str (dumps (PyVal.dict kvs))) = PyVal.dict kvs
    rw [loads_dumps]
  | list xs =>
    show (match loads (dumps (PyVal.list xs)) with
      | some (PyVal.dict kvs2) => PyVal.dict kvs2
      | some (PyVal.list xs2) => PyVal.list xs2
      | _ => PyVal.str (dumps (PyVal.list xs))) = PyVal.list xs
    rw [loads_dumps]
  | int n => rfl
  | bool b => rfl
  | none => rfl

theorem deserializeEntries_serializeEntries {d : List (String × PyVal)}
    (h : ∀ p ∈ d, ∀ s, p.2 = PyVal.str s →
      ((loads s).all fun r => !isStructured r) = true) :
    deserializeEntries (serializeEntries d) = d := by
  induction d with
  | nil => rfl
  | cons p ps ih =>
    obtain ⟨k, v⟩ := p
    have h1 : ∀ s, v = PyVal.str s → ((loads s).all fun r => !isStructured r) = true :=
      fun s hs => h (k, v) (by simp) s hs
    have h2 := ih (fun q hq s hs => h q (by simp [hq]) s hs)
    simp only [serializeEntries, deserializeEntries, List.map_cons] at h2 ⊢
    rw [deserializeValue_serializeValue h1]
    simp [h2]

/- ## Lemmas about the backend model -/
theorem lookup_cons_self {x : String} {r : StoredRecord} {l : List (String × StoredRecord)} :
    List.lookup x ((x, r) :: l) = some r := by
  rw [List.lookup_cons, beq_self_eq_true]

theorem lookup_cons_ne {x i : String} {r : StoredRecord} {l : List (String × StoredRecord)}
    (h : (x == i) = false) : List.lookup x ((i, r) :: l) = List.lookup x l := by
  rw [List.lookup_cons, h]

theorem lookup_any {x : String} :
    ∀ {col : Collection} {r : StoredRecord},
      col.lookup x = some r → (col.any fun p => p.1 == x) = true := by
  intro col
  induction col with
  | nil => intro r h; simp [List.lookup] at h
  | cons p rest ih =>
    intro r h
    obtain ⟨i, r0⟩ := p
    by_cases hix : x = i
    · subst hix
      simp [List.any_cons]
    · have hne : (x == i) = false := beq_eq_false_iff_ne.mpr hix
      rw [lookup_cons_ne hne] at h
      simp [List.any_cons, ih h]

theorem lookup_map_patch (x : String) (e : UpsertEntry) :
    ∀ col : Collection,
      (col.map fun p => if p.1 == x then (p.1, patchRecord p.2 e) else p).lookup x =
        (col.lookup x).map fun r => patchRecord r e := by
  intro col
  induction col with
  | nil => rfl
  | cons p rest ih =>
    obtain ⟨i, r0⟩ := p
    by_cases hix : x = i
    · subst hix
      simp only [List.map_cons, beq_self_eq_true, if_pos, lookup_cons_self]
      rfl
    · have hne : (x == i) = false := beq_eq_false_iff_ne.mpr hix
      have hne2 : (i == x) = false := beq_eq_false_iff_ne.mpr (Ne.symm hix)
      simp only [List.map_cons, hne2, Bool.false_eq_true, if_false]
      rw [lookup_cons_ne hne, lookup_cons_ne hne, ih]

theorem lookup_applyUpsert (col : Collection) (e : UpsertEntry) {r : StoredRecord}
    (h : col.lookup e.id = some r) :
    (applyUpsert col e).lookup e.id = some (patchRecord r e) := by
  unfold applyUpsert
  rw [if_pos (lookup_any h), lookup_map_patch e.id e col, h]
  rfl

theorem filter_map_patch {e : UpsertEntry} {emb : List Rat} {md doc : PyVal}
    (hpatch : ∀ r, patchRecord r e = ⟨emb, md, doc⟩) :
    ∀ col : Collection, (col.any fun p => p.1 == e.id) = true →
      ∃ tl, (col.map fun p => if p.1 == e.id then (p.1, patchRecord p.2 e) else p).filter
          (fun p => [e.id].contains p.1 && true) = (e.id, ⟨emb, md, doc⟩) :: tl := by
  intro col
  induction col with
  | nil => intro h; simp at h
  | cons p rest ih =>
    intro hany
    obtain ⟨i, r0⟩ := p
    by_cases hix : i = e.id
    · subst hix
      simp only [List.map_cons, beq_self_eq_true, if_pos, hpatch r0]
      exact ⟨_, List.filter_cons_of_pos (by simp)⟩
    · have hne : (i == e.id) = false := beq_eq_false_iff_ne.mpr hix
      have hrest : (rest.any fun p => p.1 == e.id) = true := by
        simp only [List.any_cons, hne, Bool.false_or] at hany
        exact hany
      obtain ⟨tl, htl⟩ := ih hrest
      refine ⟨tl, ?_⟩
      simp only [List.map_cons, hne, Bool.false_eq_true, if_false]
      rw [List.filter_cons_of_neg (by simp [hix]), htl]

theorem filter_no_match {x : String} :
    ∀ {col : Collection}, (col.any fun p => p.1 == x) = false →
      col.filter (fun p => [x].contains p.1 && true) = [] := by
  intro col
  induction col with
  | nil => intro _; rfl
  | cons p rest ih =>
    intro h
    obtain ⟨i, r0⟩ := p
    simp only [List.any_cons, Bool.or_eq_false_iff] at h
    have hix : ¬i = x := ne_of_beq_false h.1
    rw [List.filter_cons_of_neg (by simp [hix]), ih h.2]

theorem filter_applyUpsert (col : Collection) (e : UpsertEntry)
    {emb : List Rat} {md doc : PyVal}
    (he : e.embedding = some emb) (hm : e.metadata = some md)
    (hd : e.document = some doc) :
    ∃ tl : Collection,
      (applyUpsert col e).filter (fun p => [e.id].contains p.1 && true) =
        (e.id, ⟨emb, md, doc⟩) :: tl := by
  have hpatch : ∀ r, patchRecord r e = ⟨emb, md, doc⟩ := by
    intro r
    unfold patchRecord
    rw [he, hm, hd]
    rfl
  unfold applyUpsert
  by_cases hany : (col.any fun p => p.1 == e.id) = true
  · rw [if_pos hany]
    exact filter_map_patch hpatch col hany
  · rw [if_neg hany]
    refine ⟨[], ?_⟩
    rw [List.filter_append, filter_no_match (Bool.not_eq_true _ ▸ hany : _ = false)]
    rw [List.filter_cons_of_pos (by simp), hpatch]
    rfl

theorem chromaGet_some_none (col : Collection) (ids : List String) :
    chromaGet col (some ids) Option.none Option.none =
      { ids := (col.filter fun p => ids.contains p.1 && true).map fun p => p.1
      , embeddings :=
          some ((col.filter fun p => ids.contains p.1 && true).map fun p => p.2.embedding)
      , metadatas :=
          some ((col.filter fun p => ids.contains p.1 && true).map fun p => p.2.metadata)
      , documents :=
          some ((col.filter fun p => ids.contains p.1 && true).map fun p => p.2.document) } :=
  rfl

theorem chromaGet_byId_applyUpsert (col : Collection) (id : String)
    (emb : List Rat) (md doc : PyVal) :
    ∃ tl : Collection,
      chromaGet (applyUpsert col ⟨id, some emb, some md, some doc⟩)
          (some [id]) Option.none Option.none =
        { ids := id :: tl.map fun p => p.1
        , embeddings := some (emb :: tl.map fun p => p.2.embedding)
        , metadatas := some (md :: tl.map fun p => p.2.metadata)
        , documents := some (doc :: tl.map fun p => p.2.document) } := by
  obtain ⟨tl, htl⟩ :=
    filter_applyUpsert col ⟨id, some emb, some md, some doc⟩ rfl rfl rfl
  refine ⟨tl, ?_⟩
  rw [chromaGet_some_none, htl]
  rfl

/- ## Facade-level lemmas -/
theorem deserializeValue_keep {s : String}
    (hs : ((loads s).all fun r => !isStructured r) = true) :
    deserializeValue (PyVal.str s) = PyVal.str s := by
  unfold deserializeValue
  cases hl : loads s with
  | none => simp only [hl]
  | some r =>
    rw [hl] at hs
    simp only [Option.all_some, Bool.not_eq_true'] at hs
    simp only [hl]
    cases r with
    | dict kvs => simp [isStructured] at hs
    | list xs => simp [isStructured] at hs
    | str s2 => rfl
    | int n => rfl
    | bool b => rfl
    | none => rfl

theorem update_payload_only (col : Collection) (id : String) (item : VecDBItem)
    (r : StoredRecord) (m : List (String × PyVal))
    (hvec : truthyVec item.vector = false)
    (hmd : pyGet item.payload "metadata" = .ok (.dict m))
    (hstored : col.lookup id = some r) :
    ∃ col2, update col id item = .ok (col2, 1) ∧
      col2.lookup id = some ⟨r.embedding, .dict (serializeEntries m), r.document⟩ := by
  have hupd : update col id item =
      .ok (applyUpsert col ⟨id, Option.none, some (.dict (serializeEntries m)),
        Option.none⟩, 1) := by
    unfold update
    rw [if_neg (show ¬(truthyVec item.vector = true) by rw [hvec]; simp), hmd]
    rfl
  refine ⟨_, hupd, ?_⟩
  exact lookup_applyUpsert col
    ⟨id, Option.none, some (.dict (serializeEntries m)), Option.none⟩ hstored

theorem update_with_vector (col : Collection) (id : String) (item : VecDBItem)
    (l : List Rat) (m : List (String × PyVal)) (mem : PyVal)
    (hvec : item.vector = some l) (hl : l ≠ [])
    (hmd : pyGet item.payload "metadata" = .ok (.dict m))
    (hmem : pyGet item.payload "memory" = .ok mem) :
    update col id item =
      .ok (applyUpsert col ⟨id, some l, some (.dict (serializeEntries m)), some mem⟩, 1) := by
  have htr : truthyVec item.vector = true := by
    rw [hvec]
    cases l with
    | nil => exact absurd rfl hl
    | cons a as => rfl
  unfold update
  rw [if_pos htr, hmd]
  show (pyGet item.payload "memory").bind (fun mem2 =>
      Except.ok (applyUpsert col
        ⟨id, item.vector, some (.dict (serializeEntries m)), some mem2⟩, 1)) = _
  rw [hmem, hvec]
  rfl

theorem get_by_id_after_upsert (col : Collection) (id : String) (emb : List Rat)
    (md doc : PyVal) (p2 : PyVal)
    (hdes : deserialize_metadata md = .ok p2) :
    get_by_id (applyUpsert col ⟨id, some emb, some md, some doc⟩) id =
      .ok (some ⟨id, some emb, p2, Option.none⟩) := by
  obtain ⟨tl, htl⟩ := chromaGet_byId_applyUpsert col id emb md doc
  unfold get_by_id
  rw [htl]
  show (deserialize_metadata md).map
      (fun p => some (VecDBItem.mk id (some emb) p Option.none)) =
    Except.ok (some (VecDBItem.mk id (some emb) p2 Option.none))
  rw [hdes]
  rfl

/- ## The claims -/

/-- C1: Metadata codec round-trip — for every payload mapping `d` in which no
string value is itself a JSON encoding of a mapping or sequence,
deserializing the serialization of `d` returns `d` unchanged: every dict/list
value is recovered deep-equal, and plain strings (including ones that look
like scalar encodings such as numbers or booleans) are kept unchanged. -/
theorem claim_C1 (d : List (String × PyVal))
    (h : ∀ p ∈ d, ∀ s, p.2 = PyVal.str s →
      ((loads s).all fun r => !isStructured r) = true) :
    (serialize_metadata (PyVal.dict d)).bind deserialize_metadata =
      Except.ok (PyVal.dict d) := by
  show deserialize_metadata (PyVal.dict (serializeEntries d)) = Except.ok (PyVal.dict d)
  show Except.ok (PyVal.dict (deserializeEntries (serializeEntries d))) =
    Except.ok (PyVal.dict d)
  rw [deserializeEntries_serializeEntries h]

theorem claim_C1_witness :
    (∀ p ∈ c1d, ∀ s, p.2 = PyVal.str s →
      ((loads s).all fun r => !isStructured r) = true) ∧
    (serialize_metadata (PyVal.dict c1d)).bind deserialize_metadata =
      Except.ok (PyVal.dict c1d) := by
  have h : ∀ p ∈ c1d, ∀ s, p.2 = PyVal.str s →
      ((loads s).all fun r => !isStructured r) = true := by
    intro p hp s hs
    simp only [c1d, List.mem_cons, List.not_mem_nil, or_false] at hp
    rcases hp with rfl | rfl | rfl | rfl | rfl | rfl <;> cases hs <;> rfl
  exact ⟨h, claim_C1 c1d h⟩

/-- C2: refuted on the code (code bug).  The stored item has metadata
`info ↦ "[1, 2]"` (a JSON-encoded list).  The claim says `get_by_ids` /
`get_by_filter` return items whose payload is the stored metadata with the
decode step applied and whose vector is the stored embedding; instead both
calls apply `deserialize_metadata` to the embeddings field and raise
`AttributeError`.  The last conjunct shows what the decode step would have
produced had it been applied to the metadata. -/
theorem claim_C2 :
    get_by_ids [("a", ⟨[1], .dict [("info", .str "[1, 2]")], .str "m"⟩)] ["a"] =
      .error PyErr.attributeError ∧
    get_by_filter [("a", ⟨[1], .dict [("info", .str "[1, 2]")], .str "m"⟩)] Option.none =
      .error PyErr.attributeError ∧
    deserializeValue (PyVal.str "[1, 2]") = PyVal.list [PyVal.int 1, PyVal.int 2] :=
  ⟨rfl, rfl, rfl⟩

/-- C3 counterexample: `update` stores `serialize_metadata(payload["metadata"])`
— only the metadata subfield — so the payload read back is `{tag: x}`, not
deep-equal to the item's full payload `{metadata: {tag: x}, memory: m}`. -/
theorem claim_C3_counterexample :
    update exCol3 "a" exItem3 = .ok (exCol3', 1) ∧
    get_by_id exCol3' "a" =
      .ok (some ⟨"a", some [1], PyVal.dict [("tag", PyVal.str "x")], Option.none⟩) ∧
    PyVal.dict [("tag", PyVal.str "x")] ≠ exItem3.payload := by
  refine ⟨rfl, rfl, ?_⟩
  simp [exItem3]

/-- C3 (amended): for every `update(id, item)` with a non-empty vector, the
operation issues exactly one backend upsert replacing the stored vector,
metadata and document body at `id`, and a subsequent `get_by_id(id)` returns
the item's vector together with a payload deep-equal to the `metadata`
subfield of the item's payload (not the full payload). -/
theorem claim_C3 (col : Collection) (id : String) (item : VecDBItem)
    (l : List Rat) (m : List (String × PyVal)) (mem : PyVal)
    (hvec : item.vector = some l) (hl : l ≠ [])
    (hmd : pyGet item.payload "metadata" = .ok (.dict m))
    (hmem : pyGet item.payload "memory" = .ok mem)
    (hm : ∀ p ∈ m, ∀ s, p.2 = PyVal.str s →
      ((loads s).all fun r => !isStructured r) = true) :
    ∃ col2, update col id item = .ok (col2, 1) ∧
      get_by_id col2 id = .ok (some ⟨id, some l, PyVal.dict m, Option.none⟩) := by
  refine ⟨_, update_with_vector col id item l m mem hvec hl hmd hmem, ?_⟩
  have hdes : deserialize_metadata (PyVal.dict (serializeEntries m)) =
      .ok (PyVal.dict m) := by
    show Except.ok (PyVal.dict (deserializeEntries (serializeEntries m))) =
      Except.ok (PyVal.dict m)
    rw [deserializeEntries_serializeEntries hm]
  exact get_by_id_after_upsert col id l (PyVal.dict (serializeEntries m)) mem
    (PyVal.dict m) hdes

theorem claim_C3_witness :
    ∃ col2,
      update [] "a" ⟨"a", some [1],
          PyVal.dict [("metadata", PyVal.dict [("tag", PyVal.str "x")]),
            ("memory", PyVal.str "m")], Option.none⟩ = .ok (col2, 1) ∧
      get_by_id col2 "a" =
        .ok (some ⟨"a", some [1], PyVal.dict [("tag", PyVal.str "x")], Option.none⟩) := by
  refine claim_C3 [] "a" _ [1] [("tag", PyVal.str "x")] (PyVal.str "m") rfl (by simp)
    rfl rfl ?_
  intro p hp s hs
  simp only [List.mem_singleton] at hp
  subst hp
  injection hs with h2
  subst h2
  rfl

/-- C4: payload-only update frame property — for every stored id, an `update`
whose item has no (falsy) vector issues one metadata-only upsert: the stored
vector and document body at `id` are unchanged and only the metadata is
overwritten (with the serialized `metadata` subfield of the payload). -/
theorem claim_C4 (col : Collection) (id : String) (item : VecDBItem)
    (r : StoredRecord) (m : List (String × PyVal))
    (hvec : truthyVec item.vector = false)
    (hmd : pyGet item.payload "metadata" = .ok (.dict m))
    (hstored : col.lookup id = some r) :
    ∃ col2, update col id item = .ok (col2, 1) ∧
      col2.lookup id = some ⟨r.embedding, .dict (serializeEntries m), r.document⟩ :=
  update_payload_only col id item r m hvec hmd hstored

theorem claim_C4_witness :
    ∃ col2,
      update [("a", ⟨[1], .dict [], .str "d"⟩)] "a"
          ⟨"x", Option.none,
            PyVal.dict [("metadata", PyVal.dict [("t", PyVal.str "v")]),
              ("memory", PyVal.str "m")], Option.none⟩ =
        .ok (col2, 1) ∧
      col2.lookup "a" = some ⟨[1], PyVal.dict [("t", PyVal.str "v")], .str "d"⟩ :=
  claim_C4 [("a", ⟨[1], .dict [], .str "d"⟩)] "a" _ ⟨[1], .dict [], .str "d"⟩
    [("t", PyVal.str "v")] rfl rfl rfl

/-- C5: refuted on the code (code bug).  `search` passes the caller's filter as
the backend's `where_document` (document-content) argument rather than the
`where` (metadata) argument `get_by_filter` uses: on a metadata-style filter
the backend rejects it (`ValueError`), although the same filter, applied where
`get_by_filter` applies it, selects the stored item. -/
theorem claim_C5 :
    search [("a", ⟨[1], .dict [("tag", .str "x")], .str "m"⟩)] [1] 5
      (some [("tag", PyVal.str "x")]) = .error PyErr.valueError ∧
    (chromaGet [("a", ⟨[1], .dict [("tag", .str "x")], .str "m"⟩)] Option.none
      (some [("tag", PyVal.str "x")]) (some 100)).ids = ["a"] :=
  ⟨rfl, rfl⟩

/-- C6: for every filter (present, empty or absent), whenever `get_by_filter`
with its default limit returns a sequence of items, `count` of the same filter
returns exactly the length of that sequence. -/
theorem claim_C6 (col : Collection) (filter : Option (List (String × PyVal)))
    (items : List VecDBItem) (h : get_by_filter col filter 100 = .ok items) :
    count col filter = .ok items.length := by
  unfold count
  rw [h]
  rfl

theorem claim_C6_witness :
    get_by_filter ([] : Collection) Option.none 100 = .ok [] ∧
    count [] Option.none = .ok 0 :=
  ⟨rfl, claim_C6 [] Option.none [] rfl⟩

/-- C7: `create_collection` is idempotent — from any backend state holding the
configured name at most once, the first call leaves exactly one collection of
that name, and a second call in succession changes nothing and performs no
backend creation call. -/
theorem claim_C7 (st : List String) (name : String) (h : st.count name ≤ 1) :
    (create_collection (create_collection st name).1 name).1 =
        (create_collection st name).1 ∧
    (create_collection (create_collection st name).1 name).2 = false ∧
    (create_collection st name).1.count name = 1 := by
  by_cases hin : st.contains name = true
  · have hmem : name ∈ st := by simpa using hin
    have hcount : 1 ≤ st.count name := List.one_le_count_iff.mpr hmem
    simp only [create_collection, collection_exists, hin, if_true]
    exact ⟨trivial, trivial, by omega⟩
  · have hin' : st.contains name = false := by simpa using hin
    have hmem : name ∉ st := by simpa using hin
    have hcount : st.count name = 0 := List.count_eq_zero.mpr hmem
    simp only [create_collection, collection_exists, hin', Bool.false_eq_true, if_false]
    have hin2 : (st ++ [name]).contains name = true := by simp
    simp only [hin2, if_true]
    refine ⟨trivial, trivial, ?_⟩
    rw [List.count_append, hcount]
    simp

theorem claim_C7_witness :
    List.count "c" ["existing"] ≤ 1 ∧
    ((create_collection (create_collection ["existing"] "c").1 "c").1 =
        (create_collection ["existing"] "c").1 ∧
      (create_collection (create_collection ["existing"] "c").1 "c").2 = false ∧
      (create_collection ["existing"] "c").1.count "c" = 1) :=
  ⟨by decide, claim_C7 ["existing"] "c" (by decide)⟩

/-- C8: `get_collection` fetches the handle; on initial success no recreation
or retry occurs.  On initial failure it recreates the collection and retries
the fetch exactly once (one create call, two fetches in the trace), and the
result of that single retry — in particular its failure — is returned to the
caller unmodified. -/
theorem claim_C8 {H E : Type} (f1 f2 : Except E H) :
    (∀ h : H, f1 = .ok h → get_collection f1 f2 = (.ok h, [ClientCall.getColl])) ∧
    (∀ e1 : E, f1 = .error e1 →
      (get_collection f1 f2).2.count ClientCall.createColl = 1 ∧
      (get_collection f1 f2).2.count ClientCall.getColl = 2 ∧
      (get_collection f1 f2).1 = f2) ∧
    (∀ e1 e2, f1 = .error e1 → f2 = .error e2 →
      (get_collection f1 f2).1 = .error e2) := by
  refine ⟨?_, ?_, ?_⟩
  · intro h hf
    subst hf
    rfl
  · intro e1 hf
    subst hf
    exact ⟨rfl, rfl, rfl⟩
  · intro e1 e2 hf1 hf2
    subst hf1
    subst hf2
    rfl

theorem claim_C8_witness :
    ((Except.error "down" : Except String Unit) = .error "down") ∧
    (get_collection (Except.error "down" : Except String Unit)
      (.error "still down")).1 = .error "still down" :=
  ⟨rfl, (claim_C8 (Except.error "down") (Except.error "still down")).2.2
    "down" "still down" rfl rfl⟩

/-- C9: `deserialize_metadata` never propagates an error on a mapping input:
it returns normally, and every entry whose string value fails to parse as
JSON, or parses to a plain scalar, is kept unchanged in the result. -/
theorem claim_C9 (d : List (String × PyVal)) :
    deserialize_metadata (PyVal.dict d) = .ok (PyVal.dict (deserializeEntries d)) ∧
    ∀ (i : Nat) (k s : String), d[i]? = some (k, PyVal.str s) →
      ((loads s).all fun r => !isStructured r) = true →
      (deserializeEntries d)[i]? = some (k, PyVal.str s) := by
  refine ⟨rfl, ?_⟩
  intro i k s hd hs
  unfold deserializeEntries
  rw [List.getElem?_map, hd]
  show some (k, deserializeValue (PyVal.str s)) = some (k, PyVal.str s)
  rw [deserializeValue_keep hs]

theorem claim_C9_witness :
    deserialize_metadata (PyVal.dict [("a", PyVal.str "hello"), ("n", PyVal.str "42")]) =
      .ok (PyVal.dict
        (deserializeEntries [("a", PyVal.str "hello"), ("n", PyVal.str "42")])) ∧
    (deserializeEntries [("a", PyVal.str "hello"), ("n", PyVal.str "42")])[0]? =
      some ("a", PyVal.str "hello") :=
  ⟨(claim_C9 _).1, (claim_C9 _).2 0 "a" "hello" rfl rfl⟩

/-- C10: an `update` whose item has `vector = some []` (present but empty)
behaves identically to one with `vector` absent: the payload-only branch is
taken, so for a stored id the vector and document body are left untouched and
only the metadata is written. -/
theorem claim_C10 (col : Collection) (id i2 : String) (payload : PyVal)
    (score : Option Rat) (r : StoredRecord) (m : List (String × PyVal))
    (hmd : pyGet payload "metadata" = .ok (.dict m))
    (hstored : col.lookup id = some r) :
    update col id ⟨i2, some [], payload, score⟩ =
      update col id ⟨i2, Option.none, payload, score⟩ ∧
    ∃ col2, update col id ⟨i2, some [], payload, score⟩ = .ok (col2, 1) ∧
      col2.lookup id = some ⟨r.embedding, PyVal.dict (serializeEntries m), r.document⟩ :=
  ⟨rfl, update_payload_only col id ⟨i2, some [], payload, score⟩ r m rfl hmd hstored⟩

theorem claim_C10_witness :
    update [("a", ⟨[2], .dict [], .str "d"⟩)] "a"
        ⟨"a", some [], PyVal.dict [("metadata", PyVal.dict [])], Option.none⟩ =
      update [("a", ⟨[2], .dict [], .str "d"⟩)] "a"
        ⟨"a", Option.none, PyVal.dict [("metadata", PyVal.dict [])], Option.none⟩ ∧
    ∃ col2,
      update [("a", ⟨[2], .dict [], .str "d"⟩)] "a"
          ⟨"a", some [], PyVal.dict [("metadata", PyVal.dict [])], Option.none⟩ =
        .ok (col2, 1) ∧
      col2.lookup "a" = some ⟨[2], PyVal.dict [], .str "d"⟩ :=
  claim_C10 [("a", ⟨[2], .dict [], .str "d"⟩)] "a" "a"
    (PyVal.dict [("metadata", PyVal.dict [])]) Option.none ⟨[2], .dict [], .str "d"⟩ []
    rfl rfl
